import Mathlib

/-!
Shallow embedding of `src/wordle_pycli/wordle.py` (repository Qazalbash/wordle-pycli)
and verification of the specification's claims about it.

Python strings of letters are modelled as `List Char`; the keyboard dictionary
(`dict` keyed by single letters, valued by ANSI-coloured one-letter strings) is
modelled as `Char → Option String`; the stats dictionary (keys `"1"`..`"6"`,
integer counts) is modelled as `Nat → Nat`.  Python in-place mutation of
`keyboard_state` and `current_progress` becomes explicit state passing.
-/

/-- A word: a Python string of letters, as a list of characters. -/
abbrev Word := List Char

/-- The keyboard dict: letter → ANSI-coloured one-letter string (absent key = `none`). -/
abbrev KeyboardState := Char → Option String

/-- The three per-letter feedback states of the data model. -/
inductive Feedback where
  | Absent
  | Present
  | Correct
  deriving DecidableEq

/-- `"\x1b[42m" + c + "\x1b[0m"`: the green (Correct) cell built at wordle.py:221/136. -/
def greenCode (c : Char) : String :=
  String.mk ['\x1b', '[', '4', '2', 'm', c, '\x1b', '[', '0', 'm']

/-- `"\x1b[43m" + c + "\x1b[0m"`: the yellow (Present) cell built at wordle.py:224/143. -/
def yellowCode (c : Char) : String :=
  String.mk ['\x1b', '[', '4', '3', 'm', c, '\x1b', '[', '0', 'm']

/-- `"\x1b[40m" + c + "\x1b[0m"`: the black (Absent) cell built at wordle.py:226. -/
def blackCode (c : Char) : String :=
  String.mk ['\x1b', '[', '4', '0', 'm', c, '\x1b', '[', '0', 'm']

/-- `"\x1b[100m" + c + "\x1b[0m"`: the grey cell given to every freshly seen
keyboard letter at wordle.py:132. -/
def greyCode (c : Char) : String :=
  String.mk ['\x1b', '[', '1', '0', '0', 'm', c, '\x1b', '[', '0', 'm']

/-- The branch taken by the loop body of `wordle_guess` (wordle.py:218-226) at one
position, recorded as a `Feedback` value: green (`Correct`) when
`letter == target_word[i]`, else yellow (`Present`) when `letter in target_word`,
else black (`Absent`).  The pair `p` is `(guess_word[i], target_word[i])`. -/
def fbCell (target_word : Word) (p : Char × Char) : Feedback :=
  if p.1 = p.2 then Feedback.Correct
  else if p.1 ∈ target_word then Feedback.Present
  else Feedback.Absent

/-- The per-letter feedback of `wordle_guess`: the branch of wordle.py:218-226 taken
at each position `i`, iterating `enumerate(guess_word)` against `target_word[i]`. -/
def wordleFeedback (target_word guess_word : Word) : List Feedback :=
  (List.zip guess_word target_word).map (fbCell target_word)

/-- The coloured string appended to `result` for one position by wordle.py:218-226. -/
def wordleCell (target_word : Word) (p : Char × Char) : String :=
  if p.1 = p.2 then greenCode p.1
  else if p.1 ∈ target_word then yellowCode p.1
  else blackCode p.1

/-- The `current_progress[i] = green(letter)` effect of the `wordle_guess` loop
(wordle.py:220-222): each position with `guess_word[i] == target_word[i]` is
overwritten with the green cell, every other position keeps its previous entry. -/
def updateProgress : Word → Word → List String → List String
  | t :: ts, g :: gs, p :: ps =>
      (if g = t then greenCode g else p) :: updateProgress ts gs ps
  | _, _, p => p

/-- `keyboard_state[letter] = value` for a Python dict modelled as a function. -/
def updateKey (ks : KeyboardState) (c : Char) (v : String) : KeyboardState :=
  fun d => if d = c then some v else ks d

/-- First loop of `update_keyboard_state` (wordle.py:130-132): every letter of
`set(guess_word)` not yet a key is inserted with the grey cell.  Iteration order
over the set is immaterial: keys are only inserted when absent, so the loop is
order-independent and is given pointwise. -/
def kbLoop1 (keyboard_state : KeyboardState) (guess_word : Word) : KeyboardState :=
  fun letter =>
    if letter ∈ guess_word ∧ keyboard_state letter = none
    then some (greyCode letter) else keyboard_state letter

/-- Second loop of `update_keyboard_state` (wordle.py:134-136), iterating
`enumerate(guess_word)` paired with `target_word[i]`: on `letter == target_word[i]`
the key `letter` is set to the green cell. -/
def kbLoop2 : KeyboardState → List (Char × Char) → KeyboardState
  | ks, [] => ks
  | ks, p :: rest =>
      kbLoop2 (if p.1 = p.2 then updateKey ks p.1 (greenCode p.1) else ks) rest

/-- `sum(1 for j in range(len(target_word)) if guess_word[j] == letter and
target_word[j] == letter)` from wordle.py:141-142. -/
def exactMatches (guess_word target_word : Word) (letter : Char) : Nat :=
  (List.zip guess_word target_word).countP fun p => decide (p.1 = letter ∧ p.2 = letter)

/-- Third loop of `update_keyboard_state` (wordle.py:138-143), iterating the letters
of `guess_word`: when `letter in target_word` and the stored cell is not the green
one and `guess_word.count(letter)` exceeds the number of exact-match positions of
`letter`, the key is set to the yellow cell. -/
def kbLoop3 (guess_word target_word : Word) : KeyboardState → List Char → KeyboardState
  | ks, [] => ks
  | ks, letter :: rest =>
      kbLoop3 guess_word target_word
        (if letter ∈ target_word ∧ ks letter ≠ some (greenCode letter) ∧
            exactMatches guess_word target_word letter < guess_word.count letter
         then updateKey ks letter (yellowCode letter) else ks)
        rest

/-- `update_keyboard_state` (wordle.py:107-145): the three loops in source order. -/
def update_keyboard_state (keyboard_state : KeyboardState)
    (guess_word target_word : Word) : KeyboardState :=
  kbLoop3 guess_word target_word
    (kbLoop2 (kbLoop1 keyboard_state guess_word) (List.zip guess_word target_word))
    guess_word

/-- The outputs of `wordle_guess` (wordle.py:198-230): the returned `result` string
and `progress_display`, together with the in-place updates of `keyboard_state`
and `current_progress` made explicit. -/
structure GuessResult where
  result : String
  keyboard_state : KeyboardState
  current_progress : List String
  progress_display : String

/-- `wordle_guess` (wordle.py:198-230).  The single loop's two independent effects
(appending a coloured cell to `result`, overwriting `current_progress[i]` at green
positions) are given as `wordleCell` over the zipped positions and
`updateProgress`; then `update_keyboard_state` is called and
`progress_display = "".join(current_progress)`. -/
def wordle_guess (target_word guess_word : Word) (keyboard_state : KeyboardState)
    (current_progress : List String) : GuessResult :=
  { result := String.join ((List.zip guess_word target_word).map (wordleCell target_word)),
    keyboard_state := update_keyboard_state keyboard_state guess_word target_word,
    current_progress := updateProgress target_word guess_word current_progress,
    progress_display := String.join (updateProgress target_word guess_word current_progress) }

/-- The per-iteration state of the `play_wordle` loop (wordle.py:334-365). -/
structure GameState where
  attempts : Nat
  guesses : List String
  keyboard_state : KeyboardState
  current_progress : List String

/-- One iteration of the `play_wordle` loop body (wordle.py:345-365) on input
`guess_word`.  An input of the wrong length or not in the dictionary `WORDS` is
rejected by `continue` (wordle.py:348-350), leaving the state unchanged; otherwise
`wordle_guess` runs, its result is appended to `guesses`, `update_keyboard_state`
is called a second time (wordle.py:359), and `attempts` is decremented unless the
guess equals the target (the `break` at wordle.py:362-363). -/
def gameStep (WORDS : List Word) (target_word : Word) (s : GameState)
    (guess_word : Word) : GameState :=
  if guess_word.length ≠ target_word.length ∨ guess_word ∉ WORDS then s
  else
    { attempts := if guess_word = target_word then s.attempts else s.attempts - 1,
      guesses := s.guesses ++
        [(wordle_guess target_word guess_word s.keyboard_state s.current_progress).result],
      keyboard_state := update_keyboard_state
        (wordle_guess target_word guess_word s.keyboard_state s.current_progress).keyboard_state
        guess_word target_word,
      current_progress :=
        (wordle_guess target_word guess_word s.keyboard_state s.current_progress).current_progress }

/-- `update_stats` (wordle.py:307-326) on the stats mapping: the bucket `attempt`
is incremented only when `attempt < 7`; otherwise the mapping is written back
unchanged.  (The reads/writes of `stats.json` and the `display_score` call carry
no further state.) -/
def update_stats (stats : Nat → Nat) (attempt : Nat) : Nat → Nat :=
  if attempt < 7 then fun k => if k = attempt then stats k + 1 else stats k else stats

/-- The all-zero stats record `{str(i): 0 for i in range(1, 7)}` written when
`stats.json` is absent (wordle.py:372-374); its keys are `1`..`6` only. -/
def initStats : Nat → Nat := fun _ => 0

/-- The stats mapping after a sequence of completed games, each recorded with
`update_stats` at its final `7 - attempts` value (wordle.py:376). -/
def playGames (stats : Nat → Nat) (l : List Nat) : Nat → Nat :=
  l.foldl update_stats stats

/-- Sum of the persisted histogram over all of its buckets (keys `1`..`6`). -/
def sumStats (stats : Nat → Nat) : Nat :=
  stats 1 + stats 2 + stats 3 + stats 4 + stats 5 + stats 6

/-- Spec reference (§4.1 first pass): the multiset of target letters left after the
first pass consumed `target[i]` at every position with `guess[i] == target[i]` —
the target letters at non-matching positions, as a list used as a multiset. -/
def unconsumed (target_word guess_word : Word) : List Char :=
  (List.zip guess_word target_word).filterMap fun p =>
    if p.1 = p.2 then none else some p.2

/-- Spec reference (§4.1 second pass): left-to-right scan.  A matching position
stays `Correct`; otherwise the position is `Present` exactly when an unconsumed
occurrence of the guess letter remains (consuming it), and `Absent` otherwise. -/
def twoPassGo : Word → Word → List Char → List Feedback
  | g :: gs, t :: ts, avail =>
      if g = t then Feedback.Correct :: twoPassGo gs ts avail
      else if g ∈ avail then Feedback.Present :: twoPassGo gs ts (avail.erase g)
      else Feedback.Absent :: twoPassGo gs ts avail
  | _, _, _ => []

/-- Spec reference: the full two-pass duplicate-aware feedback algorithm of §4.1. -/
def twoPassFeedback (target_word guess_word : Word) : List Feedback :=
  twoPassGo guess_word target_word (unconsumed target_word guess_word)

/-- Some position has `guess_word[i] == target_word[i] == c`: letter `c` receives a
`Correct` somewhere in this guess. -/
def matchExists (guess_word target_word : Word) (c : Char) : Prop :=
  ∃ p ∈ List.zip guess_word target_word, p.1 = c ∧ p.2 = c

instance instDecidableMatchExists (guess_word target_word : Word) (c : Char) :
    Decidable (matchExists guess_word target_word c) :=
  inferInstanceAs (Decidable (∃ p ∈ List.zip guess_word target_word, p.1 = c ∧ p.2 = c))

/-- Spec reference (§4.2): the best feedback of letter `c` across one guess —
`Correct` if some position matched, else `Present` if an occurrence of `c` in the
target survives the first pass's consumption, else `Absent`. -/
def bestFeedback (guess_word target_word : Word) (c : Char) : Feedback :=
  if matchExists guess_word target_word c then Feedback.Correct
  else if c ∈ unconsumed target_word guess_word then Feedback.Present
  else Feedback.Absent

/-- Rank of a feedback state, `Correct > Present > Absent` (spec §3). -/
def feedRank : Feedback → Nat
  | Feedback.Correct => 3
  | Feedback.Present => 2
  | Feedback.Absent => 1

/-- The keyboard cell that displays feedback `f` for letter `c`: green for
`Correct`, yellow for `Present`, grey for `Absent` (the keyboard marks absent
letters with the grey cell of wordle.py:132). -/
def encodeKey (c : Char) : Feedback → String
  | Feedback.Correct => greenCode c
  | Feedback.Present => yellowCode c
  | Feedback.Absent => greyCode c

/-- Rank of a stored keyboard cell for letter `c`: green 3, yellow 2, grey 1,
absent key 0 (`Correct > Present > Absent > unseen`, spec §3). -/
def kbRank (c : Char) : Option String → Nat
  | none => 0
  | some v =>
      if v = greenCode c then 3
      else if v = yellowCode c then 2
      else if v = greyCode c then 1
      else 0

/-- Keyboard states actually built by the program: every stored value is one of
the three cells for its own letter. -/
def WFState (ks : KeyboardState) : Prop :=
  ∀ c, ks c = none ∨ ks c = some (greenCode c) ∨
    ks c = some (yellowCode c) ∨ ks c = some (greyCode c)

theorem yellowCode_ne_greenCode (c : Char) : yellowCode c ≠ greenCode c := by
  intro h
  have h2 := congrArg (fun s => s.data.getD 3 ' ') h
  simp [yellowCode, greenCode, List.getD] at h2

theorem greyCode_ne_greenCode (c : Char) : greyCode c ≠ greenCode c := by
  intro h
  have h2 := congrArg (fun s => s.data.length) h
  simp [greyCode, greenCode] at h2

theorem greyCode_ne_yellowCode (c : Char) : greyCode c ≠ yellowCode c := by
  intro h
  have h2 := congrArg (fun s => s.data.length) h
  simp [greyCode, yellowCode] at h2

theorem kbRank_none (c : Char) : kbRank c none = 0 := rfl

theorem kbRank_green (c : Char) : kbRank c (some (greenCode c)) = 3 := by
  simp [kbRank]

theorem kbRank_yellow (c : Char) : kbRank c (some (yellowCode c)) = 2 := by
  simp [kbRank, yellowCode_ne_greenCode]

theorem kbRank_grey (c : Char) : kbRank c (some (greyCode c)) = 1 := by
  simp [kbRank, greyCode_ne_greenCode, greyCode_ne_yellowCode]

theorem kbRank_le_three (c : Char) (v : Option String) : kbRank c v ≤ 3 := by
  cases v with
  | none => simp [kbRank]
  | some s => simp only [kbRank]; split_ifs <;> omega

theorem kbRank_le_two_of_ne_green (c : Char) (v : Option String)
    (h : v ≠ some (greenCode c)) : kbRank c v ≤ 2 := by
  cases v with
  | none => simp [kbRank]
  | some s =>
      have hs : s ≠ greenCode c := fun he => h (by rw [he])
      simp only [kbRank]
      split_ifs with h1 h2 h3
      · exact absurd h1 hs
      all_goals omega

theorem updateProgress_idem : ∀ (t g : Word) (p : List String),
    updateProgress t g (updateProgress t g p) = updateProgress t g p
  | [], _, _ => by simp [updateProgress]
  | _ :: _, [], _ => by simp [updateProgress]
  | _ :: _, _ :: _, [] => by simp [updateProgress]
  | t0 :: ts, g0 :: gs, p0 :: ps => by
      by_cases h : g0 = t0 <;>
        simp [updateProgress, h, updateProgress_idem ts gs ps]

/-- C9: the progress update of `wordle_guess` is idempotent on repeated identical
guesses: running `wordle_guess` a second time with the same target and guess on the
progress it produced returns the same progress list and the same progress display. -/
theorem wordle_guess_progress_idempotent (target_word guess_word : Word)
    (ks1 ks2 : KeyboardState) (p : List String) :
    (wordle_guess target_word guess_word ks2
        (wordle_guess target_word guess_word ks1 p).current_progress).current_progress =
      (wordle_guess target_word guess_word ks1 p).current_progress ∧
    (wordle_guess target_word guess_word ks2
        (wordle_guess target_word guess_word ks1 p).current_progress).progress_display =
      (wordle_guess target_word guess_word ks1 p).progress_display := by
  constructor <;> simp [wordle_guess, updateProgress_idem]

/-- C7: the progress update of `wordle_guess` sets position `i` to the green cell of
the target's letter exactly when `guess[i] == target[i]` (the Correct positions),
and leaves every other position's previous entry (in particular a never-solved
placeholder) unchanged. -/
theorem updateProgress_getD_eq : ∀ (t g : Word) (p : List String) (i : Nat),
    g.length = t.length → p.length = t.length → i < t.length →
    (updateProgress t g p).getD i "" =
      (if g.getD i ' ' = t.getD i ' ' then greenCode (t.getD i ' ') else p.getD i "")
  | [], _, _, i, _, _, hi => by simp at hi
  | _ :: _, [], _, _, hg, _, _ => by simp at hg
  | _ :: _, _ :: _, [], _, _, hp, _ => by simp at hp
  | t0 :: ts, g0 :: gs, p0 :: ps, 0, _, _, _ => by
      by_cases h : g0 = t0
      · subst h; simp [updateProgress]
      · simp [updateProgress, h]
  | t0 :: ts, g0 :: gs, p0 :: ps, i + 1, hg, hp, hi => by
      simp only [updateProgress, List.getD_cons_succ]
      exact updateProgress_getD_eq ts gs ps i (by simpa using hg) (by simpa using hp)
        (by simpa using hi)

theorem updateProgress_getD_eq_witness :
    (['a', 'c'] : Word).length = (['a', 'b'] : Word).length ∧
    (["*", "*"] : List String).length = (['a', 'b'] : Word).length ∧
    0 < (['a', 'b'] : Word).length ∧
    (updateProgress ['a', 'b'] ['a', 'c'] ["*", "*"]).getD 0 "" =
      (if (['a', 'c'] : Word).getD 0 ' ' = (['a', 'b'] : Word).getD 0 ' '
       then greenCode ((['a', 'b'] : Word).getD 0 ' ')
       else (["*", "*"] : List String).getD 0 "") :=
  ⟨rfl, rfl, by decide,
    updateProgress_getD_eq ['a', 'b'] ['a', 'c'] ["*", "*"] 0 rfl rfl (by decide)⟩

theorem zipSelf_fbCell (t0 : Word) : ∀ (l : Word),
    (List.zip l l).map (fbCell t0) = List.replicate l.length Feedback.Correct
  | [] => rfl
  | a :: l => by
      simp [fbCell, List.replicate_succ, zipSelf_fbCell t0 l]

/-- C8: for a word of the dictionary, guessing the target itself makes every
position of the `wordle_guess` feedback `Correct`. -/
theorem wordleFeedback_self_all_correct (WORDS : List Word) (T : Word)
    (hT : T ∈ WORDS) :
    wordleFeedback T T = List.replicate T.length Feedback.Correct := by
  unfold wordleFeedback
  exact zipSelf_fbCell T T

theorem wordleFeedback_self_all_correct_witness :
    (['c', 'a', 't'] : Word) ∈ [(['c', 'a', 't'] : Word)] ∧
    wordleFeedback ['c', 'a', 't'] ['c', 'a', 't'] =
      List.replicate (['c', 'a', 't'] : Word).length Feedback.Correct :=
  ⟨by decide, wordleFeedback_self_all_correct [['c', 'a', 't']] ['c', 'a', 't'] (by decide)⟩

/-- C10: for a lost game (`attempt ≥ 7`), `update_stats` writes the statistics back
with every bucket unchanged: no loss bucket exists and nothing is incremented. -/
theorem update_stats_loss_frame (stats : Nat → Nat) (attempt : Nat)
    (h : 7 ≤ attempt) : update_stats stats attempt = stats := by
  unfold update_stats
  rw [if_neg (by omega)]

theorem update_stats_loss_frame_witness :
    7 ≤ 7 ∧ update_stats initStats 7 = initStats :=
  ⟨by decide, update_stats_loss_frame initStats 7 (by decide)⟩

theorem playGames_cons (S : Nat → Nat) (a : Nat) (l : List Nat) :
    playGames S (a :: l) = playGames (update_stats S a) l := rfl

theorem sumStats_update_stats (S : Nat → Nat) (a : Nat) (ha : 1 ≤ a) :
    sumStats (update_stats S a) = sumStats S + if a < 7 then 1 else 0 := by
  by_cases h7 : a < 7
  · simp only [update_stats, sumStats, if_pos h7]
    split_ifs <;> omega
  · simp [update_stats, sumStats, h7]

theorem sumStats_playGames : ∀ (l : List Nat) (S : Nat → Nat), (∀ a ∈ l, 1 ≤ a) →
    sumStats (playGames S l) = sumStats S + l.countP (fun a => decide (a < 7))
  | [], S, _ => by simp [playGames]
  | a :: l, S, h => by
      have h1 : 1 ≤ a := h a (List.mem_cons_self a l)
      have h2 : ∀ b ∈ l, 1 ≤ b := fun b hb => h b (List.mem_cons_of_mem a hb)
      rw [playGames_cons, sumStats_playGames l (update_stats S a) h2,
        sumStats_update_stats S a h1, List.countP_cons]
      by_cases h7 : a < 7 <;> simp [h7] <;> omega

/-- C3 counterexample: starting from the freshly initialised statistics, one lost
game (final attempt value 7) leaves the histogram summing to 0, not to the 1 game
played: no loss bucket is incremented. -/
theorem sumStats_loss_not_counted :
    ¬ (sumStats (playGames initStats [7]) = ([7] : List Nat).length) := by decide

/-- C3 amended: each won game (final attempt value `k < 7`, with `k ≥ 1`)
increments exactly bucket `k`, while a lost game (value 7) increments nothing, so
after any sequence of games the histogram sums to the number of games won, not to
the number of games played. -/
theorem sumStats_eq_wins (l : List Nat) (h : ∀ a ∈ l, 1 ≤ a) :
    sumStats (playGames initStats l) = l.countP (fun a => decide (a < 7)) := by
  rw [sumStats_playGames l initStats h]
  simp [sumStats, initStats]

theorem sumStats_eq_wins_witness :
    (∀ a ∈ ([3, 7] : List Nat), 1 ≤ a) ∧
    sumStats (playGames initStats [3, 7]) =
      List.countP (fun a => decide (a < 7)) [3, 7] :=
  ⟨by decide, sumStats_eq_wins [3, 7] (by decide)⟩

theorem kbLoop2_apply (c : Char) : ∀ (l : List (Char × Char)) (ks : KeyboardState),
    kbLoop2 ks l c =
      if ∃ p ∈ l, p.1 = c ∧ p.2 = c then some (greenCode c) else ks c
  | [], ks => by simp [kbLoop2]
  | a :: rest, ks => by
      rw [show kbLoop2 ks (a :: rest) =
        kbLoop2 (if a.1 = a.2 then updateKey ks a.1 (greenCode a.1) else ks) rest from rfl]
      rw [kbLoop2_apply c rest]
      by_cases hr : ∃ p ∈ rest, p.1 = c ∧ p.2 = c
      · have hcons : ∃ p ∈ a :: rest, p.1 = c ∧ p.2 = c := by
          obtain ⟨p, hp, hpc⟩ := hr
          exact ⟨p, List.mem_cons_of_mem a hp, hpc⟩
        rw [if_pos hr, if_pos hcons]
      · rw [if_neg hr]
        by_cases hh : a.1 = c ∧ a.2 = c
        · have hcons : ∃ p ∈ a :: rest, p.1 = c ∧ p.2 = c :=
            ⟨a, List.mem_cons_self a rest, hh⟩
          have hab : a.1 = a.2 := hh.1.trans hh.2.symm
          rw [if_pos hcons, if_pos hab]
          simp [updateKey, hh.1]
        · have hcons : ¬ ∃ p ∈ a :: rest, p.1 = c ∧ p.2 = c := by
            rintro ⟨p, hp, hpc⟩
            rcases List.mem_cons.mp hp with h | h
            · exact hh (h ▸ hpc)
            · exact hr ⟨p, h, hpc⟩
          rw [if_neg hcons]
          by_cases hab : a.1 = a.2
          · rw [if_pos hab]
            have hca : ¬ (c = a.1) := fun h => hh ⟨h.symm, hab.symm.trans h.symm⟩
            simp [updateKey, hca]
          · rw [if_neg hab]

theorem kbLoop3_apply (g t : Word) (c : Char) : ∀ (l : List Char) (ks : KeyboardState),
    kbLoop3 g t ks l c =
      if c ∈ l ∧ c ∈ t ∧ ks c ≠ some (greenCode c) ∧ exactMatches g t c < g.count c
      then some (yellowCode c) else ks c
  | [], ks => by simp [kbLoop3]
  | a :: rest, ks => by
      rw [show kbLoop3 g t ks (a :: rest) = kbLoop3 g t
        (if a ∈ t ∧ ks a ≠ some (greenCode a) ∧ exactMatches g t a < g.count a
         then updateKey ks a (yellowCode a) else ks) rest from rfl]
      rw [kbLoop3_apply g t c rest]
      by_cases hac : a = c
      · subst hac
        by_cases hg : a ∈ t ∧ ks a ≠ some (greenCode a) ∧ exactMatches g t a < g.count a
        · rw [if_pos hg]
          have hks : updateKey ks a (yellowCode a) a = some (yellowCode a) := by
            simp [updateKey]
          have hcons : a ∈ a :: rest ∧ a ∈ t ∧ ks a ≠ some (greenCode a) ∧
              exactMatches g t a < g.count a := ⟨List.mem_cons_self a rest, hg⟩
          rw [hks, ite_self, if_pos hcons]
        · have h1 : ¬ (a ∈ rest ∧ a ∈ t ∧ ks a ≠ some (greenCode a) ∧
              exactMatches g t a < g.count a) := fun h => hg h.2
          have h2 : ¬ (a ∈ a :: rest ∧ a ∈ t ∧ ks a ≠ some (greenCode a) ∧
              exactMatches g t a < g.count a) := fun h => hg h.2
          rw [if_neg hg, if_neg h1, if_neg h2]
      · have hca : ¬ (c = a) := fun h => hac h.symm
        have hks : (if a ∈ t ∧ ks a ≠ some (greenCode a) ∧
            exactMatches g t a < g.count a
            then updateKey ks a (yellowCode a) else ks) c = ks c := by
          split_ifs with h
          · simp [updateKey, hca]
          · rfl
        rw [hks]
        simp only [List.mem_cons, hca, false_or]

theorem update_keyboard_state_apply (ks : KeyboardState) (g t : Word) (c : Char) :
    update_keyboard_state ks g t c =
      if c ∈ g ∧ c ∈ t ∧
          (if matchExists g t c then some (greenCode c)
           else if c ∈ g ∧ ks c = none then some (greyCode c) else ks c) ≠
            some (greenCode c) ∧
          exactMatches g t c < g.count c
      then some (yellowCode c)
      else if matchExists g t c then some (greenCode c)
      else if c ∈ g ∧ ks c = none then some (greyCode c) else ks c := by
  unfold update_keyboard_state
  rw [kbLoop3_apply g t c g, kbLoop2_apply c (List.zip g t)]
  simp only [kbLoop1, matchExists]

/-- C4: the keyboard state is monotone under `update_keyboard_state`: for every
prior keyboard state, guess, target and letter, the rank of the stored cell
(`Correct` 3 > `Present` 2 > `Absent` 1 > unseen 0) never decreases; in particular
a letter once green can never become yellow or grey. -/
theorem update_keyboard_state_rank_mono (ks : KeyboardState) (g t : Word) (c : Char) :
    kbRank c (ks c) ≤ kbRank c (update_keyboard_state ks g t c) := by
  rw [update_keyboard_state_apply]
  by_cases h1 : matchExists g t c
  · simp only [if_pos h1]
    have hno : ¬ (c ∈ g ∧ c ∈ t ∧ (some (greenCode c) : Option String) ≠
        some (greenCode c) ∧ exactMatches g t c < g.count c) := by
      rintro ⟨-, -, hne, -⟩
      exact hne rfl
    rw [if_neg hno]
    calc kbRank c (ks c) ≤ 3 := kbRank_le_three c (ks c)
      _ = kbRank c (some (greenCode c)) := (kbRank_green c).symm
  · simp only [if_neg h1]
    by_cases h2 : c ∈ g ∧ ks c = none
    · simp only [if_pos h2]
      rw [h2.2, kbRank_none]
      exact Nat.zero_le _
    · simp only [if_neg h2]
      split_ifs with h3
      · have hne : ks c ≠ some (greenCode c) := h3.2.2.1
        calc kbRank c (ks c) ≤ 2 := kbRank_le_two_of_ne_green c (ks c) hne
          _ = kbRank c (some (yellowCode c)) := (kbRank_yellow c).symm
      · exact Nat.le_refl _

theorem unconsumed_nil_left (g : Word) : unconsumed [] g = [] := by
  simp [unconsumed]

theorem unconsumed_cons (t0 g0 : Char) (ts gs : Word) :
    unconsumed (t0 :: ts) (g0 :: gs) =
      if g0 = t0 then unconsumed ts gs else t0 :: unconsumed ts gs := by
  by_cases h : g0 = t0 <;>
    simp [unconsumed, List.zip_cons_cons, List.filterMap_cons, h]

theorem mem_of_mem_unconsumed : ∀ (g t : Word) (c : Char), c ∈ unconsumed t g → c ∈ t
  | _, [], _ => by simp [unconsumed_nil_left]
  | [], _ :: _, c => by simp [unconsumed]
  | g0 :: gs, t0 :: ts, c => by
      rw [unconsumed_cons]
      by_cases h : g0 = t0
      · rw [if_pos h]
        intro hc
        exact List.mem_cons_of_mem t0 (mem_of_mem_unconsumed gs ts c hc)
      · rw [if_neg h]
        intro hc
        rcases List.mem_cons.mp hc with h1 | h1
        · rw [h1]; exact List.mem_cons_self t0 ts
        · exact List.mem_cons_of_mem t0 (mem_of_mem_unconsumed gs ts c h1)

theorem mem_unconsumed_of : ∀ (g t : Word) (c : Char), g.length = t.length → c ∈ t →
    (∀ p ∈ List.zip g t, ¬ (p.1 = c ∧ p.2 = c)) → c ∈ unconsumed t g
  | [], [], c, _, hc, _ => by simp at hc
  | [], _ :: _, _, hlen, _, _ => by simp at hlen
  | _ :: _, [], _, hlen, _, _ => by simp at hlen
  | g0 :: gs, t0 :: ts, c, hlen, hc, hno => by
      rw [unconsumed_cons]
      have hlen' : gs.length = ts.length := by simpa using hlen
      rcases List.mem_cons.mp hc with h1 | h1
      · by_cases h : g0 = t0
        · exact absurd ⟨h.trans h1.symm, h1.symm⟩
            (hno (g0, t0) (by rw [List.zip_cons_cons]; exact List.mem_cons_self _ _))
        · rw [if_neg h, h1]
          exact List.mem_cons_self t0 _
      · have hno' : ∀ p ∈ List.zip gs ts, ¬ (p.1 = c ∧ p.2 = c) := fun p hp =>
          hno p (by rw [List.zip_cons_cons]; exact List.mem_cons_of_mem _ hp)
        have hrec := mem_unconsumed_of gs ts c hlen' h1 hno'
        by_cases h : g0 = t0
        · rw [if_pos h]; exact hrec
        · rw [if_neg h]; exact List.mem_cons_of_mem t0 hrec

theorem exactMatches_pos_iff (g t : Word) (c : Char) :
    0 < exactMatches g t c ↔ matchExists g t c := by
  unfold exactMatches matchExists
  rw [List.countP_pos_iff]
  simp only [decide_eq_true_eq]

/-- C5: for every well-formed keyboard state, equal-length guess and target, and
letter occurring in the guess, `update_keyboard_state` stores the maximum of the
previously stored cell and the letter's best feedback across this guess
(`Correct` if some position matched, else `Present` if an occurrence of the letter
in the target survives the first pass's consumption, else `Absent`): the stored
cell changes exactly when the new feedback outranks the stored one. -/
theorem update_keyboard_state_stores_best (ks : KeyboardState) (g t : Word)
    (c : Char) (hwf : WFState ks) (hc : c ∈ g) (hlen : g.length = t.length) :
    update_keyboard_state ks g t c =
      if kbRank c (ks c) < feedRank (bestFeedback g t c)
      then some (encodeKey c (bestFeedback g t c)) else ks c := by
  rw [update_keyboard_state_apply]
  by_cases h1 : matchExists g t c
  · have hb : bestFeedback g t c = Feedback.Correct := by
      rw [bestFeedback, if_pos h1]
    rw [hb]
    simp only [if_pos h1, feedRank, encodeKey]
    have hno : ¬ (c ∈ g ∧ c ∈ t ∧ (some (greenCode c) : Option String) ≠
        some (greenCode c) ∧ exactMatches g t c < g.count c) := by
      rintro ⟨-, -, hne, -⟩
      exact hne rfl
    rw [if_neg hno]
    rcases hwf c with h | h | h | h
    · rw [h, kbRank_none, if_pos (show (0 : Nat) < 3 from by omega)]
    · rw [h, kbRank_green, if_neg (show ¬ (3 : Nat) < 3 from by omega)]
    · rw [h, kbRank_yellow, if_pos (show (2 : Nat) < 3 from by omega)]
    · rw [h, kbRank_grey, if_pos (show (1 : Nat) < 3 from by omega)]
  · have hm0 : exactMatches g t c = 0 := by
      have h2 : ¬ 0 < exactMatches g t c := fun hp =>
        h1 ((exactMatches_pos_iff g t c).mp hp)
      omega
    have hcnt : exactMatches g t c < g.count c := by
      rw [hm0]
      exact List.count_pos_iff.mpr hc
    by_cases h2 : c ∈ t
    · have hun : c ∈ unconsumed t g := by
        apply mem_unconsumed_of g t c hlen h2
        intro p hp hpc
        exact h1 ⟨p, hp, hpc⟩
      have hb : bestFeedback g t c = Feedback.Present := by
        rw [bestFeedback, if_neg h1, if_pos hun]
      rw [hb]
      simp only [if_neg h1, feedRank, encodeKey]
      rcases hwf c with h | h | h | h
      · have hin : c ∈ g ∧ ks c = none := ⟨hc, h⟩
        rw [if_pos hin]
        have hgg : (some (greyCode c) : Option String) ≠ some (greenCode c) := by
          simp [greyCode_ne_greenCode]
        rw [if_pos ⟨hc, h2, hgg, hcnt⟩, h, kbRank_none,
          if_pos (show (0 : Nat) < 2 from by omega)]
      · have hin : ¬ (c ∈ g ∧ ks c = none) := by
          rintro ⟨-, hn⟩
          rw [h] at hn
          exact Option.noConfusion hn
        rw [if_neg hin]
        have hno : ¬ (c ∈ g ∧ c ∈ t ∧ ks c ≠ some (greenCode c) ∧
            exactMatches g t c < g.count c) := by
          rintro ⟨-, -, hne, -⟩
          exact hne h
        rw [if_neg hno, h, kbRank_green, if_neg (show ¬ (3 : Nat) < 2 from by omega)]
      · have hin : ¬ (c ∈ g ∧ ks c = none) := by
          rintro ⟨-, hn⟩
          rw [h] at hn
          exact Option.noConfusion hn
        rw [if_neg hin]
        have hne : ks c ≠ some (greenCode c) := by
          rw [h]
          simp [yellowCode_ne_greenCode]
        rw [if_pos ⟨hc, h2, hne, hcnt⟩, h, kbRank_yellow,
          if_neg (show ¬ (2 : Nat) < 2 from by omega)]
      · have hin : ¬ (c ∈ g ∧ ks c = none) := by
          rintro ⟨-, hn⟩
          rw [h] at hn
          exact Option.noConfusion hn
        rw [if_neg hin]
        have hne : ks c ≠ some (greenCode c) := by
          rw [h]
          simp [greyCode_ne_greenCode]
        rw [if_pos ⟨hc, h2, hne, hcnt⟩, h, kbRank_grey,
          if_pos (show (1 : Nat) < 2 from by omega)]
    · have hun : c ∉ unconsumed t g := fun hm => h2 (mem_of_mem_unconsumed g t c hm)
      have hb : bestFeedback g t c = Feedback.Absent := by
        rw [bestFeedback, if_neg h1, if_neg hun]
      rw [hb]
      simp only [if_neg h1, feedRank, encodeKey]
      have hno : ¬ (c ∈ g ∧ c ∈ t ∧
          (if c ∈ g ∧ ks c = none then some (greyCode c) else ks c) ≠
            some (greenCode c) ∧ exactMatches g t c < g.count c) := by
        rintro ⟨-, hct, -, -⟩
        exact h2 hct
      rw [if_neg hno]
      rcases hwf c with h | h | h | h
      · rw [if_pos ⟨hc, h⟩, h, kbRank_none, if_pos (show (0 : Nat) < 1 from by omega)]
      · have hin : ¬ (c ∈ g ∧ ks c = none) := by
          rintro ⟨-, hn⟩
          rw [h] at hn
          exact Option.noConfusion hn
        rw [if_neg hin, h, kbRank_green, if_neg (show ¬ (3 : Nat) < 1 from by omega)]
      · have hin : ¬ (c ∈ g ∧ ks c = none) := by
          rintro ⟨-, hn⟩
          rw [h] at hn
          exact Option.noConfusion hn
        rw [if_neg hin, h, kbRank_yellow, if_neg (show ¬ (2 : Nat) < 1 from by omega)]
      · have hin : ¬ (c ∈ g ∧ ks c = none) := by
          rintro ⟨-, hn⟩
          rw [h] at hn
          exact Option.noConfusion hn
        rw [if_neg hin, h, kbRank_grey, if_neg (show ¬ (1 : Nat) < 1 from by omega)]

theorem update_keyboard_state_stores_best_witness :
    WFState (fun _ => none) ∧ 'a' ∈ (['a', 'b'] : Word) ∧
    (['a', 'b'] : Word).length = (['b', 'a'] : Word).length ∧
    update_keyboard_state (fun _ => none) ['a', 'b'] ['b', 'a'] 'a' =
      (if kbRank 'a' ((fun _ => none : KeyboardState) 'a') <
          feedRank (bestFeedback ['a', 'b'] ['b', 'a'] 'a')
       then some (encodeKey 'a' (bestFeedback ['a', 'b'] ['b', 'a'] 'a'))
       else (fun _ => none : KeyboardState) 'a') :=
  ⟨fun _ => Or.inl rfl, by decide, rfl,
    update_keyboard_state_stores_best (fun _ => none) ['a', 'b'] ['b', 'a'] 'a'
      (fun _ => Or.inl rfl) (by decide) rfl⟩

theorem fbCell_correct_iff (t0 : Word) (p : Char × Char) :
    fbCell t0 p = Feedback.Correct ↔ p.1 = p.2 := by
  unfold fbCell
  split_ifs with h1 h2 <;> simp [h1]

theorem twoPassGo_eq_map (t0 : Word) : ∀ (gs ts : Word) (avail : List Char),
    gs.Nodup →
    (∀ p ∈ List.zip gs ts, p.1 ≠ p.2 → (p.1 ∈ avail ↔ p.1 ∈ t0)) →
    twoPassGo gs ts avail = (List.zip gs ts).map (fbCell t0)
  | [], _, _, _, _ => by simp [twoPassGo]
  | _ :: _, [], _, _, _ => by simp [twoPassGo]
  | g :: gs, t :: ts, avail, hnd, H => by
      obtain ⟨hg, hnd'⟩ := List.nodup_cons.mp hnd
      by_cases hgt : g = t
      · have H' : ∀ p ∈ List.zip gs ts, p.1 ≠ p.2 → (p.1 ∈ avail ↔ p.1 ∈ t0) :=
          fun p hp =>
            H p (by rw [List.zip_cons_cons]; exact List.mem_cons_of_mem _ hp)
        simp only [twoPassGo, if_pos hgt, List.zip_cons_cons, List.map_cons]
        rw [twoPassGo_eq_map t0 gs ts avail hnd' H',
          show fbCell t0 (g, t) = Feedback.Correct from by simp [fbCell, hgt]]
      · by_cases hga : g ∈ avail
        · have hgt0 : g ∈ t0 :=
            (H (g, t) (by rw [List.zip_cons_cons]; exact List.mem_cons_self _ _) hgt).mp hga
          have H' : ∀ p ∈ List.zip gs ts, p.1 ≠ p.2 →
              (p.1 ∈ avail.erase g ↔ p.1 ∈ t0) := by
            intro p hp hne
            have hp1 : p.1 ∈ gs := (List.of_mem_zip hp).1
            have hpg : p.1 ≠ g := fun he => hg (he ▸ hp1)
            rw [List.mem_erase_of_ne hpg]
            exact H p (by rw [List.zip_cons_cons]; exact List.mem_cons_of_mem _ hp) hne
          simp only [twoPassGo, if_neg hgt, if_pos hga, List.zip_cons_cons, List.map_cons]
          rw [twoPassGo_eq_map t0 gs ts (avail.erase g) hnd' H',
            show fbCell t0 (g, t) = Feedback.Present from by simp [fbCell, hgt, hgt0]]
        · have hgt0 : g ∉ t0 := fun hmem =>
            hga ((H (g, t)
              (by rw [List.zip_cons_cons]; exact List.mem_cons_self _ _) hgt).mpr hmem)
          have H' : ∀ p ∈ List.zip gs ts, p.1 ≠ p.2 → (p.1 ∈ avail ↔ p.1 ∈ t0) :=
            fun p hp =>
              H p (by rw [List.zip_cons_cons]; exact List.mem_cons_of_mem _ hp)
          simp only [twoPassGo, if_neg hgt, if_neg hga, List.zip_cons_cons, List.map_cons]
          rw [twoPassGo_eq_map t0 gs ts avail hnd' H',
            show fbCell t0 (g, t) = Feedback.Absent from by simp [fbCell, hgt, hgt0]]

theorem unconsumed_iff_aux : ∀ (g t : Word), g.Nodup → g.length = t.length →
    ∀ p ∈ List.zip g t, p.1 ≠ p.2 → (p.1 ∈ unconsumed t g ↔ p.1 ∈ t)
  | [], _, _, _ => by simp
  | _ :: _, [], _, hlen => by simp at hlen
  | g0 :: gs, t0 :: ts, hnd, hlen => by
      obtain ⟨hg, hnd'⟩ := List.nodup_cons.mp hnd
      have hlen' : gs.length = ts.length := by simpa using hlen
      intro p hp hne
      rw [List.zip_cons_cons] at hp
      rcases List.mem_cons.mp hp with h | h
      · have hne' : g0 ≠ t0 := by rw [h] at hne; exact hne
        rw [h]
        show g0 ∈ unconsumed (t0 :: ts) (g0 :: gs) ↔ g0 ∈ t0 :: ts
        rw [unconsumed_cons, if_neg hne']
        constructor
        · intro hmem
          rcases List.mem_cons.mp hmem with h1 | h1
          · rw [h1]; exact List.mem_cons_self t0 ts
          · exact List.mem_cons_of_mem t0 (mem_of_mem_unconsumed gs ts g0 h1)
        · intro hmem
          rcases List.mem_cons.mp hmem with h1 | h1
          · exact absurd h1 hne'
          · refine List.mem_cons_of_mem t0 (mem_unconsumed_of gs ts g0 hlen' h1 ?_)
            intro q hq hqc
            have hq1 : q.1 ∈ gs := (List.of_mem_zip hq).1
            exact hg (hqc.1 ▸ hq1)
      · have ih := unconsumed_iff_aux gs ts hnd' hlen' p h hne
        have hp1 : p.1 ∈ gs := (List.of_mem_zip h).1
        have hpg : p.1 ≠ g0 := fun he => hg (he ▸ hp1)
        rw [unconsumed_cons]
        by_cases hgt : g0 = t0
        · rw [if_pos hgt, ih]
          constructor
          · exact List.mem_cons_of_mem t0
          · intro hmem
            rcases List.mem_cons.mp hmem with h1 | h1
            · exact absurd (h1.trans hgt.symm) hpg
            · exact h1
        · rw [if_neg hgt]
          constructor
          · intro hmem
            rcases List.mem_cons.mp hmem with h1 | h1
            · rw [h1]; exact List.mem_cons_self t0 ts
            · exact List.mem_cons_of_mem t0 (ih.mp h1)
          · intro hmem
            rcases List.mem_cons.mp hmem with h1 | h1
            · rw [h1]; exact List.mem_cons_self t0 (unconsumed ts gs)
            · exact List.mem_cons_of_mem t0 (ih.mpr h1)

/-- C1 counterexample: for target `"ab"` and guess `"aa"`, `wordle_guess` marks the
second `a` `Present` although the two-pass reference algorithm, having consumed the
target's only `a` for the first-position `Correct`, marks it `Absent`. -/
theorem wordleFeedback_ne_twoPassFeedback :
    wordleFeedback ['a', 'b'] ['a', 'a'] ≠ twoPassFeedback ['a', 'b'] ['a', 'a'] := by
  decide

/-- C1 amended: `wordle_guess` computes its feedback in a single pass without
consuming target letters (`Correct` on a positional match, else `Present` whenever
the letter occurs anywhere in the target, else `Absent`); this agrees with the
two-pass reference algorithm for every guess without repeated letters. -/
theorem wordleFeedback_eq_twoPassFeedback_of_nodup (t g : Word) (hnd : g.Nodup)
    (hlen : g.length = t.length) :
    wordleFeedback t g = twoPassFeedback t g := by
  unfold wordleFeedback twoPassFeedback
  exact (twoPassGo_eq_map t g t (unconsumed t g) hnd (unconsumed_iff_aux g t hnd hlen)).symm

theorem wordleFeedback_eq_twoPassFeedback_of_nodup_witness :
    (['b', 'a'] : Word).Nodup ∧
    (['b', 'a'] : Word).length = (['a', 'b'] : Word).length ∧
    wordleFeedback ['a', 'b'] ['b', 'a'] = twoPassFeedback ['a', 'b'] ['b', 'a'] :=
  ⟨by decide, rfl,
    wordleFeedback_eq_twoPassFeedback_of_nodup ['a', 'b'] ['b', 'a'] (by decide) rfl⟩

theorem correct_cap_aux (t0 : Word) (c : Char) : ∀ (gs ts : Word),
    (List.zip gs ((List.zip gs ts).map (fbCell t0))).countP
      (fun q => decide (q.1 = c ∧ q.2 = Feedback.Correct)) ≤ ts.count c
  | [], _ => by simp
  | _ :: _, [] => by simp
  | g :: gs, t :: ts => by
      have ih := correct_cap_aux t0 c gs ts
      simp only [List.zip_cons_cons, List.map_cons, List.countP_cons, List.count_cons]
      by_cases h1 : g = c ∧ fbCell t0 (g, t) = Feedback.Correct
      · have hgt : g = t := (fbCell_correct_iff t0 (g, t)).mp h1.2
        have hct : (t == c) = true := beq_iff_eq.mpr (hgt.symm.trans h1.1)
        rw [if_pos (decide_eq_true h1), if_pos hct]
        omega
      · rw [if_neg (by simpa using h1)]
        by_cases hct : (t == c) = true
        · rw [if_pos hct]
          omega
        · rw [if_neg hct]
          omega

/-- C2 counterexample: for target `"ab"` and guess `"aa"`, both positions of letter
`a` receive `Correct` or `Present`, exceeding the single occurrence of `a` in the
target: the Present+Correct multiplicity cap fails for `wordle_guess`. -/
theorem presentCorrectCount_exceeds_target_count :
    ¬ ((List.zip (['a', 'a'] : Word) (wordleFeedback ['a', 'b'] ['a', 'a'])).countP
        (fun q => decide (q.1 = 'a' ∧
          (q.2 = Feedback.Correct ∨ q.2 = Feedback.Present))) ≤
      (['a', 'b'] : Word).count 'a') := by
  decide

/-- C2 amended: only the `Correct` feedback respects the per-letter multiplicity
cap: for every target, guess and letter, the number of positions where the guess
has that letter and the `wordle_guess` feedback is `Correct` never exceeds the
letter's number of occurrences in the target (the cap on `Correct`+`Present`
together fails, since `Present` marking does not consume target occurrences). -/
theorem correctCount_le_target_count (t g : Word) (c : Char)
    (hlen : g.length = t.length) :
    (List.zip g (wordleFeedback t g)).countP
      (fun q => decide (q.1 = c ∧ q.2 = Feedback.Correct)) ≤ t.count c := by
  unfold wordleFeedback
  exact correct_cap_aux t c g t

theorem correctCount_le_target_count_witness :
    (['a', 'a'] : Word).length = (['a', 'b'] : Word).length ∧
    (List.zip (['a', 'a'] : Word) (wordleFeedback ['a', 'b'] ['a', 'a'])).countP
      (fun q => decide (q.1 = 'a' ∧ q.2 = Feedback.Correct)) ≤
      (['a', 'b'] : Word).count 'a' :=
  ⟨rfl, correctCount_le_target_count ['a', 'b'] ['a', 'a'] 'a' rfl⟩

/-- C6: one iteration of the game loop leaves the state (attempt counter, guess
history, keyboard state, progress) unchanged exactly when the input has the wrong
length or is not in the dictionary: an invalid guess is rejected without penalty,
and this is the only condition under which nothing happens. -/
theorem gameStep_eq_self_iff_invalid (WORDS : List Word) (target_word : Word)
    (s : GameState) (guess_word : Word) :
    gameStep WORDS target_word s guess_word = s ↔
      (guess_word.length ≠ target_word.length ∨ guess_word ∉ WORDS) := by
  constructor
  · intro h
    by_contra hv
    unfold gameStep at h
    rw [if_neg hv] at h
    have hg := congrArg GameState.guesses h
    have hlen := congrArg List.length hg
    simp [List.length_append] at hlen
  · intro h
    unfold gameStep
    rw [if_pos h]

/-- The coloured result cell that displays feedback `f` for letter `c` in the
`result` string: green for `Correct`, yellow for `Present`, black for `Absent`. -/
def cellColor (c : Char) : Feedback → String
  | Feedback.Correct => greenCode c
  | Feedback.Present => yellowCode c
  | Feedback.Absent => blackCode c

theorem wordleCell_eq_cellColor (t0 : Word) (p : Char × Char) :
    wordleCell t0 p = cellColor p.1 (fbCell t0 p) := by
  unfold wordleCell fbCell cellColor
  split_ifs <;> rfl

theorem cells_eq_aux (t0 : Word) : ∀ (gs ts : Word),
    (List.zip gs ts).map (wordleCell t0) =
      (List.zip gs ((List.zip gs ts).map (fbCell t0))).map (fun q => cellColor q.1 q.2)
  | [], _ => rfl
  | _ :: _, [] => rfl
  | g :: gs, t :: ts => by
      simp [List.zip_cons_cons, cells_eq_aux t0 gs ts, wordleCell_eq_cellColor]

/-- The `result` string returned by `wordle_guess` is exactly the join of the
per-position feedback of `wordleFeedback`, each coloured for its guess letter:
`wordleFeedback` is the per-letter feedback of the evaluator. -/
theorem wordle_guess_result_eq_feedback (target_word guess_word : Word)
    (ks : KeyboardState) (p : List String) :
    (wordle_guess target_word guess_word ks p).result =
      String.join ((List.zip guess_word (wordleFeedback target_word guess_word)).map
        (fun q => cellColor q.1 q.2)) := by
  unfold wordle_guess wordleFeedback
  rw [cells_eq_aux target_word guess_word target_word]
